import Mathlib

/-!
Verification of `main.py` from the instagram-botter repository.

The script is embedded shallowly:
* real-valued quantities (sleep durations, random draws) are rationals `ℚ`;
* the nondeterministic outcome of each underlying `session.request` call is
  supplied as a function `Nat → CallOutcome` giving, for each attempt index,
  either a transport exception or a response with its HTTP status code;
* `safe_request` is modelled with explicit fuel equal to the number of loop
  iterations still allowed, returning the result together with the number of
  underlying request calls made and backoff sleeps performed;
* the thread-pool dispatcher `process_targets` is modelled with an explicit
  completion order (the order in which `as_completed` yields futures) and an
  explicit injection of unexpected task exceptions.
-/

/-- Outcome of one underlying `session.request` call: either a
`requests.RequestException` is raised, or a response with the given
HTTP status code is returned. -/
inductive CallOutcome where
  | exc : CallOutcome
  | resp : Nat → CallOutcome
deriving DecidableEq, Repr

/-- Model of `requests.Response.ok`: true unless `raise_for_status` would raise,
i.e. unless the status code is a 4xx client error or 5xx server error. -/
def response_ok (s : Nat) : Bool := !(400 ≤ s && s < 600)

/-- Whether a status code is a 2xx success code (the spec wording for C4). -/
def is_2xx (s : Nat) : Bool := 200 ≤ s && s < 300

/-- What one call to `safe_request` did: the returned value (`none` models the
Python `None` sentinel), the number of underlying `session.request` calls
made, and the number of backoff sleeps performed. -/
structure RequestTrace where
  result : Option Nat
  calls : Nat
  sleeps : Nat
deriving DecidableEq, Repr

/-- The `while attempt < max_attempts` loop of `safe_request`, with
`fuel = max_attempts - attempt` remaining iterations.  On a transport
exception or a rate-limit status (429 or 420) the loop sleeps and retries;
any other response is returned immediately. -/
def safe_request_loop (f : Nat → CallOutcome) (attempt : Nat) : Nat → RequestTrace
  | 0 => ⟨none, 0, 0⟩
  | fuel + 1 =>
    match f attempt with
    | CallOutcome.exc =>
      let r := safe_request_loop f (attempt + 1) fuel
      ⟨r.result, r.calls + 1, r.sleeps + 1⟩
    | CallOutcome.resp s =>
      if s = 429 ∨ s = 420 then
        let r := safe_request_loop f (attempt + 1) fuel
        ⟨r.result, r.calls + 1, r.sleeps + 1⟩
      else ⟨some s, 1, 0⟩

/-- Model of `safe_request(session, method, url, max_attempts)`: run the retry loop
starting at `attempt = 0`.  `max_attempts` is a Python `int`, so it may be
non-positive, in which case the loop body is never entered. -/
def safe_request (f : Nat → CallOutcome) (max_attempts : Int) : RequestTrace :=
  safe_request_loop f 0 max_attempts.toNat

/-- Model of `exponential_backoff_sleep(base, attempt, jitter)` where
`u = random.uniform(-jitter, jitter)` is the random draw: the slept duration
is `max(0, base * 2**attempt * (1 + u))`. -/
def exponential_backoff_sleep (base : ℚ) (attempt : Nat) (u : ℚ) : ℚ :=
  max 0 (base * 2 ^ attempt * (1 + u))

/-- Model of `like_post(session, post_url, dry_run)`: returns the boolean outcome
together with the number of underlying network calls made.  In dry-run mode
it returns `True` without calling `safe_request`; otherwise it POSTs via
`safe_request` (default `max_attempts = 5`) and returns
`resp is not None and resp.ok`. -/
def like_post (f : Nat → CallOutcome) (dry_run : Bool) : Bool × Nat :=
  if dry_run then (true, 0)
  else
    let tr := safe_request f 5
    ((match tr.result with
      | some s => response_ok s
      | none => false), tr.calls)

/-- Model of `follow_user(session, user_id_or_url, dry_run)`: identical control flow
to `like_post`, differing only in log messages. -/
def follow_user (f : Nat → CallOutcome) (dry_run : Bool) : Bool × Nat :=
  if dry_run then (true, 0)
  else
    let tr := safe_request f 5
    ((match tr.result with
      | some s => response_ok s
      | none => false), tr.calls)

/-- Result of one submitted future: the task returned a boolean, or it
raised an unexpected exception (caught at the dispatcher level). -/
inductive TaskResult where
  | ok : Bool → TaskResult
  | exn : TaskResult
deriving DecidableEq, Repr

/-- The submission loop of `process_targets`: one future per target when the
action is `like` or `follow` (no future otherwise).  `behav t` gives the
request outcomes for target `t`; `raises i` injects an unexpected exception
in the `i`-th submitted task (the case the dispatcher's `try/except` guards
against, e.g. a programming error inside the handler). -/
def submit_futures (action : String) (dry_run : Bool)
    (behav : String → Nat → CallOutcome) (raises : Nat → Bool) :
    List String → Nat → List TaskResult
  | [], _ => []
  | t :: ts, i =>
    if action = "like" then
      (if raises i then TaskResult.exn else TaskResult.ok (like_post (behav t) dry_run).1)
        :: submit_futures action dry_run behav raises ts (i + 1)
    else if action = "follow" then
      (if raises i then TaskResult.exn else TaskResult.ok (follow_user (behav t) dry_run).1)
        :: submit_futures action dry_run behav raises ts (i + 1)
    else submit_futures action dry_run behav raises ts i

/-- Value of `f.result()` as observed by the collection loop: the boolean the task
returned, or nothing when the task raised. -/
def task_value : TaskResult → Option Bool
  | TaskResult.ok b => some b
  | TaskResult.exn => none

/-- The collection loop of `process_targets` (lines 120-124): futures are
consumed in `as_completed` order (`order` lists future indices); a future
whose task raised has its result omitted (the `except` branch only logs),
otherwise the boolean is appended to `results`. -/
def gather_results (futures : List TaskResult) (order : List Nat) : List Bool :=
  (order.filterMap (fun i => futures[i]?)).filterMap task_value

/-- Model of `process_targets(session, targets, action, concurrency, dry_run)`:
`ThreadPoolExecutor(max_workers=concurrency)` raises `ValueError` when
`concurrency ≤ 0` (modelled as `none`); otherwise the futures are submitted
and their results gathered in completion order. -/
def process_targets (targets : List String) (action : String) (concurrency : Int)
    (dry_run : Bool) (behav : String → Nat → CallOutcome) (raises : Nat → Bool)
    (order : List Nat) : Option (List Bool) :=
  if concurrency ≤ 0 then none
  else some (gather_results (submit_futures action dry_run behav raises targets 0) order)

/-- The ASCII whitespace characters stripped by Python's `str.strip()`. -/
def py_isspace (c : Char) : Bool :=
  c = ' ' || c = '\t' || c = '\n' || c = '\r' || c = '\x0b' || c = '\x0c'

/-- Python's `str.strip()`: remove leading and trailing whitespace. -/
def py_strip (s : String) : String :=
  ⟨((s.data.dropWhile py_isspace).reverse.dropWhile py_isspace).reverse⟩

/-- Model of `load_targets_from_file`: strip every line and keep the non-blank ones,
in file order (`[l.strip() for l in fh if l.strip()]`; a non-empty string is
truthy). -/
def load_targets_from_file (lines : List String) : List String :=
  lines.filterMap (fun l => if py_strip l = "" then none else some (py_strip l))

/-- The spec's description of target loading, written from its words: the
list of stripped lines with blank ones excluded, preserving order. -/
def load_targets_spec (lines : List String) : List String :=
  (lines.map py_strip).filter (fun s => !(s = ""))

/-- The chunking in `main`: `targets[chunk_start:chunk_start+concurrency]`
for `chunk_start in range(0, len(targets), concurrency)`. -/
def chunks (ts : List String) (c : Nat) : List (List String) :=
  if c = 0 ∨ ts = [] then []
  else ts.take c :: chunks (ts.drop c) c
termination_by ts.length
decreasing_by
  rename_i h
  push_neg at h
  simp only [List.length_drop]
  exact Nat.sub_lt (List.length_pos.mpr h.2) (Nat.pos_of_ne_zero h.1)

/-- Model of `random.uniform(2.0, 6.0)` with unit draw `u ∈ [0, 1]`. -/
def uniform_2_6 (u : ℚ) : ℚ := 2 + (6 - 2) * u

/-- An observable event of the run: a task submitted to the pool, a task
completed (all tasks of a chunk complete before `process_targets` returns,
because the `with ThreadPoolExecutor` block joins its workers), or the
inter-chunk sleep. -/
inductive MainEvent where
  | submit : String → MainEvent
  | complete : String → MainEvent
  | interSleep : ℚ → MainEvent
deriving DecidableEq, Repr

/-- The events contributed by one chunk: every target is submitted, and
every task completes before `process_targets` returns. -/
def chunk_events (ch : List String) : List MainEvent :=
  ch.map MainEvent.submit ++ ch.map MainEvent.complete

/-- The event trace of the `for chunk_start in range(...)` loop in `main`,
with `draws i` the unit draw of the `i`-th inter-chunk sleep: each chunk is
processed to completion and then the run sleeps `uniform(2.0, 6.0)`. -/
def main_trace_aux (draws : Nat → ℚ) : List (List String) → Nat → List MainEvent
  | [], _ => []
  | ch :: rest, i =>
    chunk_events ch ++ MainEvent.interSleep (uniform_2_6 (draws i)) :: main_trace_aux draws rest (i + 1)

/-- The full event trace of `main` on a target list. -/
def main_trace (targets : List String) (c : Nat) (draws : Nat → ℚ) : List MainEvent :=
  main_trace_aux draws (chunks targets c) 0

/-- If every attempt is rate-limited, the loop consumes all its fuel, making
one call and one sleep per iteration, and ends with no result. -/
lemma safe_request_loop_rate_limited (f : Nat → CallOutcome)
    (hf : ∀ i, f i = CallOutcome.resp 429 ∨ f i = CallOutcome.resp 420) :
    ∀ fuel attempt, safe_request_loop f attempt fuel = ⟨none, fuel, fuel⟩ := by
  intro fuel
  induction fuel with
  | zero => intro attempt; rfl
  | succ n ih =>
    intro attempt
    rcases hf attempt with h | h <;> simp [safe_request_loop, h, ih]

/-- C1: for every `max_attempts ≥ 1`, if every attempt yields a rate-limit
status (429 or 420), `safe_request` makes exactly `max_attempts` underlying
request calls and then returns the `None` sentinel. -/
theorem safe_request_rate_limited_exhausts (f : Nat → CallOutcome) (max_attempts : Int)
    (hmax : 1 ≤ max_attempts)
    (hf : ∀ i, f i = CallOutcome.resp 429 ∨ f i = CallOutcome.resp 420) :
    (safe_request f max_attempts).result = none ∧
      ((safe_request f max_attempts).calls : Int) = max_attempts := by
  unfold safe_request
  rw [safe_request_loop_rate_limited f hf]
  exact ⟨rfl, by simp; omega⟩

/-- Witness for C1 at `max_attempts = 3` with every attempt returning 429. -/
theorem safe_request_rate_limited_exhausts_witness :
    (1 : Int) ≤ 3 ∧
      ((safe_request (fun _ => CallOutcome.resp 429) 3).result = none ∧
        ((safe_request (fun _ => CallOutcome.resp 429) 3).calls : Int) = 3) :=
  ⟨by decide,
    safe_request_rate_limited_exhausts (fun _ => CallOutcome.resp 429) 3 (by decide)
      (fun _ => Or.inl rfl)⟩

/-- C2: if the first attempt yields a response whose status is neither 429
nor 420, `safe_request` returns that response after exactly one underlying
call and no backoff sleep, whatever the status (success, 404, 500, ...). -/
theorem safe_request_first_response_returned (f : Nat → CallOutcome) (max_attempts : Int)
    (s : Nat) (hmax : 1 ≤ max_attempts) (hf : f 0 = CallOutcome.resp s)
    (h429 : s ≠ 429) (h420 : s ≠ 420) :
    safe_request f max_attempts = ⟨some s, 1, 0⟩ := by
  unfold safe_request
  obtain ⟨n, hn⟩ : ∃ n, max_attempts.toNat = n + 1 :=
    ⟨max_attempts.toNat - 1, by omega⟩
  rw [hn]
  simp [safe_request_loop, hf, h429, h420]

/-- Witness for C2 at a 404 response on the first attempt. -/
theorem safe_request_first_response_returned_witness :
    ((1 : Int) ≤ 5 ∧ 404 ≠ 429 ∧ 404 ≠ 420) ∧
      safe_request (fun _ => CallOutcome.resp 404) 5 = ⟨some 404, 1, 0⟩ :=
  ⟨by decide,
    safe_request_first_response_returned (fun _ => CallOutcome.resp 404) 5 404
      (by decide) rfl (by decide) (by decide)⟩

/-- C10: for every `max_attempts ≤ 0` the `while attempt < max_attempts`
loop body is never entered: `safe_request` returns `None` with zero
underlying request calls and zero backoff sleeps. -/
theorem safe_request_nonpositive_attempts (f : Nat → CallOutcome) (max_attempts : Int)
    (hmax : max_attempts ≤ 0) :
    safe_request f max_attempts = ⟨none, 0, 0⟩ := by
  unfold safe_request
  rw [Int.toNat_of_nonpos hmax]
  rfl

/-- Witness for C10 at `max_attempts = -2`. -/
theorem safe_request_nonpositive_attempts_witness :
    (-2 : Int) ≤ 0 ∧ safe_request (fun _ => CallOutcome.exc) (-2) = ⟨none, 0, 0⟩ :=
  ⟨by decide, safe_request_nonpositive_attempts (fun _ => CallOutcome.exc) (-2) (by decide)⟩

/-- C3: for positive `base`, any attempt index and any draw
`u ∈ [-jitter, jitter]`, the slept duration is non-negative, bounded by
`base * 2^attempt * (1 + jitter)`, equals the jittered value
`base * 2^attempt * (1 + u)` when that value is non-negative, and is floored
at 0 when the jittered value would be negative. -/
theorem exponential_backoff_sleep_bounds (base jitter u : ℚ) (attempt : Nat)
    (hbase : 0 < base) (hu1 : -jitter ≤ u) (hu2 : u ≤ jitter) :
    0 ≤ exponential_backoff_sleep base attempt u ∧
      exponential_backoff_sleep base attempt u ≤ base * 2 ^ attempt * (1 + jitter) ∧
      (0 ≤ base * 2 ^ attempt * (1 + u) →
        exponential_backoff_sleep base attempt u = base * 2 ^ attempt * (1 + u)) ∧
      (base * 2 ^ attempt * (1 + u) < 0 → exponential_backoff_sleep base attempt u = 0) := by
  have hpow : (0 : ℚ) < 2 ^ attempt := by positivity
  have hjit : (0 : ℚ) ≤ jitter := by linarith
  have hbp : (0 : ℚ) < base * 2 ^ attempt := by positivity
  refine ⟨le_max_left _ _, ?_, ?_, ?_⟩
  · apply max_le
    · exact mul_nonneg (le_of_lt hbp) (by linarith)
    · exact mul_le_mul_of_nonneg_left (by linarith) (le_of_lt hbp)
  · intro h
    exact max_eq_right h
  · intro h
    exact max_eq_left (le_of_lt h)

/-- Counterexample to C4 as stated: a 302 redirect response is not a 2xx
success, yet `resp.ok` holds (status < 400), so both handlers return true. -/
theorem action_handler_ok_not_2xx_counterexample :
    (safe_request (fun _ => CallOutcome.resp 302) 5).result = some 302 ∧
      (like_post (fun _ => CallOutcome.resp 302) false).1 = true ∧
      (follow_user (fun _ => CallOutcome.resp 302) false).1 = true ∧
      is_2xx 302 = false := by
  decide

/-- C4 (amended): with `dry_run` false each handler returns true iff
`safe_request` produced a response and `resp.ok` holds, i.e. the status is
outside 400-599; it returns false in every other case including the `None`
sentinel, and (being a total function of the modelled call outcomes) no
exception escapes. -/
theorem action_handlers_ok_iff_response_ok (behav : Nat → CallOutcome) :
    ((like_post behav false).1 = true ↔
      ∃ s, (safe_request behav 5).result = some s ∧ response_ok s = true) ∧
    ((follow_user behav false).1 = true ↔
      ∃ s, (safe_request behav 5).result = some s ∧ response_ok s = true) := by
  cases hres : (safe_request behav 5).result with
  | none => simp [like_post, follow_user, hres]
  | some s => simp [like_post, follow_user, hres]

/-- C5: in dry-run mode each handler returns true unconditionally and makes
zero network calls (`safe_request` is never invoked). -/
theorem action_handlers_dry_run (behav : Nat → CallOutcome) :
    like_post behav true = (true, 0) ∧ follow_user behav true = (true, 0) :=
  ⟨rfl, rfl⟩

/-- The function `load_targets_from_file` filters to the lines that are non-blank after
stripping and strips each of them, preserving order. -/
lemma load_targets_eq (ls : List String) :
    load_targets_from_file ls = (ls.filter (fun l => !(py_strip l = ""))).map py_strip := by
  induction ls with
  | nil => rfl
  | cons l rest ih =>
    by_cases h : py_strip l = "" <;>
      simp [load_targets_from_file, load_targets_spec, List.filter_cons, h] at ih ⊢ <;>
      simpa [load_targets_from_file] using ih

/-- The spec's formulation computes the same list. -/
lemma load_targets_spec_eq (ls : List String) :
    load_targets_spec ls = (ls.filter (fun l => !(py_strip l = ""))).map py_strip := by
  induction ls with
  | nil => rfl
  | cons l rest ih =>
    by_cases h : py_strip l = "" <;>
      simp [load_targets_spec, List.filter_cons, h] at ih ⊢ <;>
      simpa [load_targets_spec] using ih

/-- C9: on a file whose contents have exactly `N` lines that are non-blank
after stripping, `load_targets_from_file` returns exactly the `N` stripped
entries, in file order, blank and whitespace-only lines excluded (stated as
agreement with the spec's formulation plus the length). -/
theorem load_targets_matches_spec (lines : List String) (N : Nat)
    (hN : (lines.filter (fun l => !(py_strip l = ""))).length = N) :
    load_targets_from_file lines = load_targets_spec lines ∧
      (load_targets_from_file lines).length = N :=
  ⟨(load_targets_eq lines).trans (load_targets_spec_eq lines).symm,
    by rw [load_targets_eq lines, List.length_map, hN]⟩

/-- Witness for C9 on a four-line file with two non-blank lines. -/
theorem load_targets_matches_spec_witness :
    ((["  a ", "", "   ", "b"] : List String).filter (fun l => !(py_strip l = ""))).length = 2 ∧
      (load_targets_from_file ["  a ", "", "   ", "b"] =
          load_targets_spec ["  a ", "", "   ", "b"] ∧
        (load_targets_from_file ["  a ", "", "   ", "b"]).length = 2) :=
  ⟨by decide, load_targets_matches_spec ["  a ", "", "   ", "b"] 2 (by decide)⟩

/-- Fetching every index of a list in order recovers the list. -/
lemma filterMap_range_getElem {α : Type} (l : List α) :
    (List.range l.length).filterMap (fun i => l[i]?) = l := by
  induction l with
  | nil => rfl
  | cons x xs ih =>
    have hcomp : ((fun i => (x :: xs)[i]?) ∘ Nat.succ) = fun i => xs[i]? := by
      funext i; simp
    simp [List.range_succ_eq_map, List.filterMap_cons, List.filterMap_map, hcomp, ih]

/-- Consuming the futures in any `as_completed` order yields a permutation
of the futures list. -/
lemma gathered_perm (futures : List TaskResult) (order : List Nat)
    (h : order.Perm (List.range futures.length)) :
    (order.filterMap (fun i => futures[i]?)).Perm futures := by
  have hp := h.filterMap (fun i => futures[i]?)
  rwa [filterMap_range_getElem futures] at hp

/-- Up to completion order, `gather_results` keeps exactly the futures whose
task did not raise. -/
lemma gather_results_perm (futures : List TaskResult) (order : List Nat)
    (h : order.Perm (List.range futures.length)) :
    (gather_results futures order).Perm (futures.filterMap task_value) :=
  (gathered_perm futures order h).filterMap task_value

/-- A `filterMap` that never drops an element keeps the length. -/
lemma length_filterMap_of_isSome {α β : Type} (f : α → Option β) (l : List α)
    (h : ∀ a ∈ l, (f a).isSome) : (l.filterMap f).length = l.length := by
  induction l with
  | nil => rfl
  | cons x xs ih =>
    have hx := h x (List.mem_cons_self x xs)
    cases hfx : f x with
    | none => rw [hfx] at hx; simp at hx
    | some b =>
      simp only [List.filterMap_cons, hfx, List.length_cons]
      rw [ih (fun a ha => h a (List.mem_cons_of_mem _ ha))]

/-- A `filterMap` that drops some member of the list is strictly shorter. -/
lemma length_filterMap_lt_of_mem_none {α β : Type} (f : α → Option β) (l : List α)
    (x : α) (hx : x ∈ l) (hfx : f x = none) :
    (l.filterMap f).length < l.length := by
  induction l with
  | nil => cases hx
  | cons y ys ih =>
    rcases List.mem_cons.mp hx with h | h
    · subst h
      simp only [List.filterMap_cons, hfx, List.length_cons]
      exact Nat.lt_succ_of_le (List.length_filterMap_le f ys)
    · have hlt := ih h
      cases hfy : f y <;> simp only [List.filterMap_cons, hfy, List.length_cons] <;> omega


/-- With a recognised action, one future is submitted per target. -/
lemma submit_futures_length (action : String) (dry_run : Bool)
    (behav : String → Nat → CallOutcome) (raises : Nat → Bool)
    (ha : action = "like" ∨ action = "follow") :
    ∀ (ts : List String) (i : Nat),
      (submit_futures action dry_run behav raises ts i).length = ts.length := by
  rcases ha with h | h <;> subst h <;>
    (intro ts
     induction ts with
     | nil => intro i; simp [submit_futures]
     | cons t ts ih => intro i; simp [submit_futures, ih])

/-- When no task raises, every submitted future holds a boolean. -/
lemma submit_futures_all_ok (action : String) (dry_run : Bool)
    (behav : String → Nat → CallOutcome) (raises : Nat → Bool)
    (hr : ∀ j, raises j = false) :
    ∀ (ts : List String) (i : Nat) (x : TaskResult),
      x ∈ submit_futures action dry_run behav raises ts i → (task_value x).isSome := by
  intro ts
  induction ts with
  | nil => intro i x hx; simp [submit_futures] at hx
  | cons t ts ih =>
    intro i x hx
    by_cases hlike : action = "like"
    · subst hlike
      simp [submit_futures, hr i] at hx
      rcases hx with hx | hx
      · subst hx; rfl
      · exact ih (i + 1) x hx
    · by_cases hfol : action = "follow"
      · subst hfol
        simp [submit_futures, hr i] at hx
        rcases hx with hx | hx
        · subst hx; rfl
        · exact ih (i + 1) x hx
      · simp [submit_futures, hlike, hfol] at hx
        exact ih i x hx

/-- In dry-run mode with no raised task, every submitted future is
`ok true`. -/
lemma submit_futures_dry_run_ok (action : String)
    (behav : String → Nat → CallOutcome) (raises : Nat → Bool)
    (hr : ∀ j, raises j = false) :
    ∀ (ts : List String) (i : Nat) (x : TaskResult),
      x ∈ submit_futures action true behav raises ts i → x = TaskResult.ok true := by
  intro ts
  induction ts with
  | nil => intro i x hx; simp [submit_futures] at hx
  | cons t ts ih =>
    intro i x hx
    by_cases hlike : action = "like"
    · subst hlike
      simp [submit_futures, hr i, like_post] at hx
      rcases hx with hx | hx
      · exact hx
      · exact ih (i + 1) x hx
    · by_cases hfol : action = "follow"
      · subst hfol
        simp [submit_futures, hr i, follow_user] at hx
        rcases hx with hx | hx
        · exact hx
        · exact ih (i + 1) x hx
      · simp [submit_futures, hlike, hfol] at hx
        exact ih i x hx

/-- If the `j`-th submitted task (counting from the running index `i`)
raises, the futures list contains an `exn` entry. -/
lemma submit_futures_exn_mem (action : String) (dry_run : Bool)
    (behav : String → Nat → CallOutcome) (raises : Nat → Bool)
    (ha : action = "like" ∨ action = "follow") :
    ∀ (ts : List String) (i j : Nat), j < ts.length → raises (i + j) = true →
      TaskResult.exn ∈ submit_futures action dry_run behav raises ts i := by
  intro ts
  induction ts with
  | nil => intro i j hj _; simp at hj
  | cons t ts ih =>
    intro i j hj hrij
    cases j with
    | zero =>
      have hri : raises i = true := by simpa using hrij
      rcases ha with h | h <;> subst h <;> simp [submit_futures, hri]
    | succ k =>
      have hmem : TaskResult.exn ∈ submit_futures action dry_run behav raises ts (i + 1) := by
        refine ih (i + 1) k (by simpa using hj) ?_
        have harith : i + 1 + k = i + (k + 1) := by omega
        rw [harith]; exact hrij
      rcases ha with h | h <;> subst h <;>
        · simp only [submit_futures, List.mem_cons]
          right
          simpa using hmem

/-- C6: with a positive concurrency, a recognised action, no task raising,
and `as_completed` yielding each submitted future exactly once, the
dispatcher returns exactly one boolean outcome per target; in dry-run mode
every outcome is true (the K=5, C=2 scenario is the witness below). -/
theorem process_targets_outcome_count (targets : List String) (action : String)
    (concurrency : Int) (dry_run : Bool) (behav : String → Nat → CallOutcome)
    (raises : Nat → Bool) (order : List Nat)
    (hc : 1 ≤ concurrency) (ha : action = "like" ∨ action = "follow")
    (hr : ∀ j, raises j = false)
    (ho : order.Perm (List.range targets.length)) :
    ∃ res, process_targets targets action concurrency dry_run behav raises order = some res ∧
      res.length = targets.length ∧ (dry_run = true → ∀ b ∈ res, b = true) := by
  have hnc : ¬ concurrency ≤ 0 := by omega
  have hlen : (submit_futures action dry_run behav raises targets 0).length = targets.length :=
    submit_futures_length action dry_run behav raises ha targets 0
  have hperm : (gather_results (submit_futures action dry_run behav raises targets 0)
      order).Perm ((submit_futures action dry_run behav raises targets 0).filterMap task_value) :=
    gather_results_perm _ order (by rwa [hlen])
  refine ⟨gather_results (submit_futures action dry_run behav raises targets 0) order,
    by simp [process_targets, hnc], ?_, ?_⟩
  · rw [hperm.length_eq,
      length_filterMap_of_isSome task_value _
        (fun a haf => submit_futures_all_ok action dry_run behav raises hr targets 0 a haf),
      hlen]
  · intro hdry b hb
    subst hdry
    have hbmem := hperm.mem_iff.mp hb
    obtain ⟨x, hxmem, hxval⟩ := List.mem_filterMap.mp hbmem
    have hx := submit_futures_dry_run_ok action behav raises hr targets 0 x hxmem
    subst hx
    simpa [task_value] using hxval.symm

/-- Witness for C6: the spec's scenario, 5 targets, concurrency 2, dry-run,
action `like`, futures completing in the order 1, 0, 3, 2, 4. -/
theorem process_targets_outcome_count_witness :
    ((1 : Int) ≤ 2 ∧ ("like" = "like" ∨ "like" = "follow") ∧
        (∀ j : Nat, (fun _ : Nat => false) j = false) ∧
        ([1, 0, 3, 2, 4] : List Nat).Perm
          (List.range (["t1", "t2", "t3", "t4", "t5"] : List String).length)) ∧
      ∃ res, process_targets ["t1", "t2", "t3", "t4", "t5"] "like" 2 true
            (fun _ _ => CallOutcome.exc) (fun _ => false) [1, 0, 3, 2, 4] = some res ∧
          res.length = (["t1", "t2", "t3", "t4", "t5"] : List String).length ∧
          (true = true → ∀ b ∈ res, b = true) :=
  ⟨⟨by decide, Or.inl rfl, fun _ => rfl, by decide⟩,
    process_targets_outcome_count ["t1", "t2", "t3", "t4", "t5"] "like" 2 true
      (fun _ _ => CallOutcome.exc) (fun _ => false) [1, 0, 3, 2, 4]
      (by decide) (Or.inl rfl) (fun _ => rfl) (by decide)⟩

/-- C7: if a submitted task raises, the dispatcher still returns (the
exception is caught), but the raising task's outcome is omitted rather than
recorded as false, so the outcomes list is strictly shorter than the number
of submitted tasks. -/
theorem process_targets_omits_raised_task (targets : List String) (action : String)
    (concurrency : Int) (dry_run : Bool) (behav : String → Nat → CallOutcome)
    (raises : Nat → Bool) (order : List Nat)
    (hc : 1 ≤ concurrency) (ha : action = "like" ∨ action = "follow")
    (hi : ∃ i, i < targets.length ∧ raises i = true)
    (ho : order.Perm (List.range targets.length)) :
    ∃ res, process_targets targets action concurrency dry_run behav raises order = some res ∧
      res.length < targets.length := by
  obtain ⟨i, hilen, hri⟩ := hi
  have hnc : ¬ concurrency ≤ 0 := by omega
  have hlen : (submit_futures action dry_run behav raises targets 0).length = targets.length :=
    submit_futures_length action dry_run behav raises ha targets 0
  have hmem : TaskResult.exn ∈ submit_futures action dry_run behav raises targets 0 :=
    submit_futures_exn_mem action dry_run behav raises ha targets 0 i hilen
      (by simpa using hri)
  have hperm : (gather_results (submit_futures action dry_run behav raises targets 0)
      order).Perm ((submit_futures action dry_run behav raises targets 0).filterMap task_value) :=
    gather_results_perm _ order (by rwa [hlen])
  refine ⟨gather_results (submit_futures action dry_run behav raises targets 0) order,
    by simp [process_targets, hnc], ?_⟩
  rw [hperm.length_eq, ← hlen]
  exact length_filterMap_lt_of_mem_none task_value _ TaskResult.exn hmem rfl

/-- Witness for C7: three targets, the second task raises, futures complete
in the order 2, 0, 1. -/
theorem process_targets_omits_raised_task_witness :
    ((1 : Int) ≤ 1 ∧ ("like" = "like" ∨ "like" = "follow") ∧
        (∃ i, i < (["a", "b", "c"] : List String).length ∧
          (fun j : Nat => decide (j = 1)) i = true) ∧
        ([2, 0, 1] : List Nat).Perm (List.range (["a", "b", "c"] : List String).length)) ∧
      ∃ res, process_targets ["a", "b", "c"] "like" 1 true
            (fun _ _ => CallOutcome.exc) (fun j => decide (j = 1)) [2, 0, 1] = some res ∧
          res.length < (["a", "b", "c"] : List String).length :=
  ⟨⟨by decide, Or.inl rfl, ⟨1, by decide, rfl⟩, by decide⟩,
    process_targets_omits_raised_task ["a", "b", "c"] "like" 1 true
      (fun _ _ => CallOutcome.exc) (fun j => decide (j = 1)) [2, 0, 1]
      (by decide) (Or.inl rfl) ⟨1, by decide, rfl⟩ (by decide)⟩

/-- Joining the chunks recovers the target list in order. -/
lemma chunks_join (c : Nat) (hc : 1 ≤ c) (ts : List String) :
    (chunks ts c).flatten = ts := by
  have key : ∀ (n : Nat) (l : List String), l.length ≤ n → (chunks l c).flatten = l := by
    intro n
    induction n with
    | zero =>
      intro l hl
      have hnil : l = [] := List.eq_nil_of_length_eq_zero (Nat.le_zero.mp hl)
      subst hnil
      rw [chunks]
      simp
    | succ n ih =>
      intro l hl
      rw [chunks]
      by_cases hl0 : l = []
      · simp [hl0]
      · rw [if_neg (by push_neg; exact ⟨by omega, hl0⟩)]
        have hpos : 0 < l.length := List.length_pos.mpr hl0
        have hdrop : (l.drop c).length ≤ n := by
          simp only [List.length_drop]
          omega
        simp only [List.flatten_cons]
        rw [ih (l.drop c) hdrop]
        exact List.take_append_drop c l
  exact key ts.length ts le_rfl

/-- Every chunk has at most `c` targets. -/
lemma chunks_length_le (c : Nat) (ts : List String) :
    ∀ ch ∈ chunks ts c, ch.length ≤ c := by
  have key : ∀ (n : Nat) (l : List String), l.length ≤ n →
      ∀ ch ∈ chunks l c, ch.length ≤ c := by
    intro n
    induction n with
    | zero =>
      intro l hl ch hch
      have hnil : l = [] := List.eq_nil_of_length_eq_zero (Nat.le_zero.mp hl)
      subst hnil
      rw [chunks] at hch
      simp at hch
    | succ n ih =>
      intro l hl ch hch
      rw [chunks] at hch
      by_cases hcond : c = 0 ∨ l = []
      · rw [if_pos hcond] at hch
        simp at hch
      · rw [if_neg hcond] at hch
        push_neg at hcond
        rcases List.mem_cons.mp hch with h | h
        · subst h
          exact List.length_take_le c l
        · have hpos : 0 < l.length := List.length_pos.mpr hcond.2
          refine ih (l.drop c) ?_ ch h
          simp only [List.length_drop]
          omega
  exact key ts.length ts le_rfl

/-- Every chunk except possibly the last has exactly `c` targets. -/
lemma chunks_dropLast_length (c : Nat) (ts : List String) :
    ∀ ch ∈ (chunks ts c).dropLast, ch.length = c := by
  have key : ∀ (n : Nat) (l : List String), l.length ≤ n →
      ∀ ch ∈ (chunks l c).dropLast, ch.length = c := by
    intro n
    induction n with
    | zero =>
      intro l hl ch hch
      have hnil : l = [] := List.eq_nil_of_length_eq_zero (Nat.le_zero.mp hl)
      subst hnil
      rw [chunks] at hch
      simp at hch
    | succ n ih =>
      intro l hl ch hch
      rw [chunks] at hch
      by_cases hcond : c = 0 ∨ l = []
      · rw [if_pos hcond] at hch
        simp at hch
      · rw [if_neg hcond] at hch
        push_neg at hcond
        by_cases hrest : chunks (l.drop c) c = []
        · rw [hrest] at hch
          simp at hch
        · rw [List.dropLast_cons_of_ne_nil hrest] at hch
          rcases List.mem_cons.mp hch with h | h
          · subst h
            have hdne : l.drop c ≠ [] := by
              intro hd
              apply hrest
              rw [chunks, hd]
              simp
            have hlt : c < l.length := by
              have hdp : 0 < (l.drop c).length := List.length_pos.mpr hdne
              simp only [List.length_drop] at hdp
              omega
            simp only [List.length_take]
            omega
          · have hpos : 0 < l.length := List.length_pos.mpr hcond.2
            refine ih (l.drop c) ?_ ch h
            simp only [List.length_drop]
            omega
  exact key ts.length ts le_rfl

/-- The inter-chunk sleeps in the trace all come from `uniform(2.0, 6.0)`
draws and hence lie in [2, 6]. -/
lemma main_trace_aux_sleep_bound (draws : Nat → ℚ)
    (hd : ∀ i, 0 ≤ draws i ∧ draws i ≤ 1) :
    ∀ (bs : List (List String)) (k : Nat) (d : ℚ),
      MainEvent.interSleep d ∈ main_trace_aux draws bs k → 2 ≤ d ∧ d ≤ 6 := by
  intro bs
  induction bs with
  | nil => intro k d h; simp [main_trace_aux] at h
  | cons ch rest ih =>
    intro k d h
    simp only [main_trace_aux, List.mem_append, List.mem_cons] at h
    rcases h with h | h | h
    · exfalso
      simp only [chunk_events, List.mem_append] at h
      rcases h with h | h <;>
        · obtain ⟨t, _, ht⟩ := List.mem_map.mp h
          cases ht
    · have hdval : d = uniform_2_6 (draws k) := by
        injection h
      subst hdval
      obtain ⟨h0, h1⟩ := hd k
      unfold uniform_2_6
      constructor <;> linarith
    · exact ih (k + 1) d h

/-- Unfolding the trace around one distinguished chunk: everything before it,
its own events, its inter-chunk sleep, and the trace of the rest. -/
lemma main_trace_aux_append (draws : Nat → ℚ) (ch : List String) (l2 : List (List String)) :
    ∀ (l1 : List (List String)) (k : Nat),
      main_trace_aux draws (l1 ++ ch :: l2) k =
        main_trace_aux draws l1 k ++ chunk_events ch ++
          MainEvent.interSleep (uniform_2_6 (draws (k + l1.length))) ::
            main_trace_aux draws l2 (k + l1.length + 1) := by
  intro l1
  induction l1 with
  | nil =>
    intro k
    simp [main_trace_aux]
  | cons b bs ih =>
    intro k
    have h1 : k + (b :: bs).length = k + 1 + bs.length := by
      simp only [List.length_cons]
      omega
    rw [List.cons_append]
    simp only [main_trace_aux]
    rw [ih (k + 1), h1]
    simp [List.cons_append, List.append_assoc]

/-- Recover an explicit decomposition of a list from an index lookup. -/
lemma split_of_getElem {α : Type} :
    ∀ (l : List α) (j : Nat) (y : α), l[j]? = some y →
      ∃ l2 l3, l = l2 ++ y :: l3 ∧ l2.length = j := by
  intro l
  induction l with
  | nil => intro j y h; simp at h
  | cons a l ih =>
    intro j y h
    cases j with
    | zero =>
      simp only [List.getElem?_cons_zero, Option.some.injEq] at h
      subst h
      exact ⟨[], l, rfl, rfl⟩
    | succ j =>
      simp only [List.getElem?_cons_succ] at h
      obtain ⟨l2, l3, hl, hlen⟩ := ih j y h
      exact ⟨a :: l2, l3, by rw [List.cons_append, hl], by simp [hlen]⟩

/-- Recover a two-point decomposition from two ordered index lookups. -/
lemma split_two_of_getElem {α : Type} (l : List α) (i j : Nat) (x y : α)
    (hij : i < j) (hi : l[i]? = some x) (hj : l[j]? = some y) :
    ∃ l1 l2 l3, l = l1 ++ x :: (l2 ++ y :: l3) ∧ l1.length = i ∧
      l1.length + 1 + l2.length = j := by
  obtain ⟨l1, rest, hl, hlen1⟩ := split_of_getElem l i x hi
  have hj2 : rest[j - i - 1]? = some y := by
    rw [hl, List.getElem?_append_right (by omega)] at hj
    have hidx : j - l1.length = (j - l1.length - 1) + 1 := by omega
    rw [hidx, List.getElem?_cons_succ] at hj
    have hidx2 : j - l1.length - 1 = j - i - 1 := by omega
    rwa [hidx2] at hj
  obtain ⟨l2, l3, hrest, hlen2⟩ := split_of_getElem rest (j - i - 1) y hj2
  subst hrest
  exact ⟨l1, l2, l3, by rw [hl], hlen1, by omega⟩

/-- C8: `main` partitions the target list into consecutive chunks of the
concurrency size (the final chunk possibly smaller) and processes them
strictly in order: for chunks `i < j`, every event of chunk `i` — all its
submissions and completions — precedes every event of chunk `j` in the run's
trace, with the chunk-`i` inter-chunk sleep in between; and every
inter-chunk sleep is drawn from `uniform(2.0, 6.0)`, hence lies in [2, 6]. -/
theorem main_chunks_sequential (targets : List String) (c : Nat) (draws : Nat → ℚ)
    (hc : 1 ≤ c) (hd : ∀ i, 0 ≤ draws i ∧ draws i ≤ 1) :
    (chunks targets c).flatten = targets ∧
      (∀ ch ∈ chunks targets c, ch.length ≤ c) ∧
      (∀ ch ∈ (chunks targets c).dropLast, ch.length = c) ∧
      (∀ d, MainEvent.interSleep d ∈ main_trace targets c draws → 2 ≤ d ∧ d ≤ 6) ∧
      (∀ i j bi bj, i < j → (chunks targets c)[i]? = some bi →
        (chunks targets c)[j]? = some bj →
        ∃ pre mid post,
          main_trace targets c draws =
            pre ++ chunk_events bi ++
              (MainEvent.interSleep (uniform_2_6 (draws i)) :: mid) ++
              chunk_events bj ++ post) := by
  refine ⟨chunks_join c hc targets, chunks_length_le c targets,
    chunks_dropLast_length c targets,
    fun d hmem => main_trace_aux_sleep_bound draws hd (chunks targets c) 0 d hmem, ?_⟩
  intro i j bi bj hij hi hj
  obtain ⟨l1, l2, l3, hsplit, hlen1, hlen2⟩ :=
    split_two_of_getElem (chunks targets c) i j bi bj hij hi hj
  refine ⟨main_trace_aux draws l1 0, main_trace_aux draws l2 (i + 1),
    MainEvent.interSleep (uniform_2_6 (draws j)) :: main_trace_aux draws l3 (j + 1), ?_⟩
  unfold main_trace
  rw [hsplit, main_trace_aux_append draws bi (l2 ++ bj :: l3) l1 0,
    main_trace_aux_append draws bj l3 l2 (0 + l1.length + 1)]
  simp only [Nat.zero_add]
  rw [hlen1]
  have e2 : i + 1 + l2.length = j := by omega
  rw [e2]
  simp [List.cons_append, List.append_assoc]

/-- Witness for C8: three targets with concurrency 2 (two chunks) and all
sleep draws at the midpoint. -/
theorem main_chunks_sequential_witness :
    ((1 : Nat) ≤ 2 ∧
        (∀ i : Nat, (0 : ℚ) ≤ (fun _ : Nat => (1 : ℚ) / 2) i ∧
          (fun _ : Nat => (1 : ℚ) / 2) i ≤ 1)) ∧
      ((chunks ["a", "b", "c"] 2).flatten = ["a", "b", "c"] ∧
        (∀ ch ∈ chunks ["a", "b", "c"] 2, ch.length ≤ 2) ∧
        (∀ ch ∈ (chunks ["a", "b", "c"] 2).dropLast, ch.length = 2) ∧
        (∀ d, MainEvent.interSleep d ∈
            main_trace ["a", "b", "c"] 2 (fun _ : Nat => (1 : ℚ) / 2) →
          2 ≤ d ∧ d ≤ 6) ∧
        (∀ i j bi bj, i < j → (chunks ["a", "b", "c"] 2)[i]? = some bi →
          (chunks ["a", "b", "c"] 2)[j]? = some bj →
          ∃ pre mid post,
            main_trace ["a", "b", "c"] 2 (fun _ : Nat => (1 : ℚ) / 2) =
              pre ++ chunk_events bi ++
                (MainEvent.interSleep (uniform_2_6 ((fun _ : Nat => (1 : ℚ) / 2) i)) :: mid) ++
                chunk_events bj ++ post)) :=
  ⟨⟨by decide, fun _ => by norm_num⟩,
    main_chunks_sequential ["a", "b", "c"] 2 (fun _ => (1 : ℚ) / 2) (by decide)
      (fun _ => by norm_num)⟩

/-- Witness for C3 at base 2, attempt 3, jitter 1/2, draw 1/4. -/
theorem exponential_backoff_sleep_bounds_witness :
    ((0 : ℚ) < 2 ∧ -(1 / 2 : ℚ) ≤ 1 / 4 ∧ (1 / 4 : ℚ) ≤ 1 / 2) ∧
      (0 ≤ exponential_backoff_sleep 2 3 (1 / 4) ∧
        exponential_backoff_sleep 2 3 (1 / 4) ≤ 2 * 2 ^ 3 * (1 + 1 / 2) ∧
        (0 ≤ 2 * 2 ^ 3 * (1 + (1 / 4 : ℚ)) →
          exponential_backoff_sleep 2 3 (1 / 4) = 2 * 2 ^ 3 * (1 + 1 / 4)) ∧
        (2 * 2 ^ 3 * (1 + (1 / 4 : ℚ)) < 0 → exponential_backoff_sleep 2 3 (1 / 4) = 0)) :=
  ⟨by norm_num,
    exponential_backoff_sleep_bounds 2 (1 / 2) (1 / 4) 3 (by norm_num) (by norm_num)
      (by norm_num)⟩
